import Mathlib

/-!
Verification of the geometric-inference core of the `landmarking-sierra-leone`
repository: the boundary-detection module (`boundary_detection.py`) and the
land-use classification module (`land_use.py`).

Modelling conventions
=====================

* Python floats are modelled by exact rational numbers `ℚ`.  All numeric
  literals of the source (`0.0001`, `0.65`, `0.7`, ...) are exact decimal
  fractions and are carried over verbatim as rationals.

* The ambient pseudo-random generator (`random.random`, `random.randint`,
  `random.sample`) is modelled as a fixed infinite tape `tape : ℕ → ℚ` of
  uniform draws together with a cursor `idx : ℕ`; every call to
  `random.random()` reads `tape idx` and advances the cursor.  The contract
  of the generator — every draw lies in `[0, 1)` — is the predicate
  `ValidTape`.  `random.randint a b` is derived from one tape draw the way a
  uniform integer in `[a, b]` is derived from a uniform real.  Properties are
  proved for every tape, i.e. for every outcome of the random draws.

* A GeoJSON coordinate pair `[lon, lat]` is a `Point := ℚ × ℚ`; a ring is a
  `LinearRing := List Point`; a geometry object with fields `type` and
  `coordinates` is a `Geometry` structure.

* Fallible Python operations (indexing that can raise `IndexError`,
  `random.randint` with an empty range raising `ValueError`) are modelled
  with `Option`: `none` is an uncaught Python exception.

* `math.sin`, `math.cos` and `math.pi` are transcendental; the functions of
  the source that use them are parameterised by `sinq cosq : ℚ → ℚ` and
  `piq : ℚ` standing for those library values.  No property proved here
  depends on the value of these parameters.

* The no-mutation (frame) property of `refine_polygon` is about Python
  object identity, so it cannot be read off a purely value-level embedding.
  A second, pointer-level embedding (`namespace Alias`) stores every point
  object in an arena and mirrors, allocation by allocation, which point
  objects the source creates and which it shares; the frame theorem states
  that the arena cells existing before the call are untouched after it.
-/

/-! ## The random tape -/

/-- The infinite stream of draws produced by the pseudo-random generator,
together with the cursor position: `random.random()` returns `tape idx` and
moves the cursor to `idx + 1`. -/
def rand (tape : ℕ → ℚ) (idx : ℕ) : ℚ × ℕ :=
  (tape idx, idx + 1)

/-- The generator contract: every draw of `random.random()` lies in `[0,1)`. -/
def ValidTape (tape : ℕ → ℚ) : Prop :=
  ∀ n, 0 ≤ tape n ∧ tape n < 1

/-- `random.randint a b` (uniform integer in `[a, b]`, both ends included),
derived from one tape draw the way a uniform integer is derived from a
uniform real.  The Python call raises `ValueError` when `a > b`; callers
model that case separately. -/
def randint (tape : ℕ → ℚ) (a b : ℕ) (idx : ℕ) : ℕ × ℕ :=
  (a + (⌊tape idx * ((b : ℚ) + 1 - (a : ℚ))⌋).toNat, idx + 1)

/-- Range of `randint`: with a valid tape and `a ≤ b` the result lies in
`[a, b]`. -/
theorem randint_mem (tape : ℕ → ℚ) (a b idx : ℕ) (ht : ValidTape tape)
    (hab : a ≤ b) :
    a ≤ (randint tape a b idx).1 ∧ (randint tape a b idx).1 ≤ b := by
  obtain ⟨h0, h1⟩ := ht idx
  have hspan : (1 : ℚ) ≤ (b : ℚ) + 1 - (a : ℚ) := by
    have : (a : ℚ) ≤ (b : ℚ) := by exact_mod_cast hab
    linarith
  constructor
  · exact Nat.le_add_right a _
  · have hlt : tape idx * ((b : ℚ) + 1 - (a : ℚ)) < (b : ℚ) + 1 - (a : ℚ) := by
      nlinarith
    have hfl : ⌊tape idx * ((b : ℚ) + 1 - (a : ℚ))⌋ < (b : ℤ) + 1 - (a : ℤ) := by
      rw [Int.floor_lt]
      push_cast
      linarith
    have : (⌊tape idx * ((b : ℚ) + 1 - (a : ℚ))⌋).toNat ≤ b - a := by omega
    simp only [randint]
    omega

/-! ## The geometry data model -/

/-- A GeoJSON coordinate pair `[lon, lat]`. -/
abbrev Point := ℚ × ℚ

/-- One ring of a polygon: an ordered list of coordinate pairs. -/
abbrev LinearRing := List Point

/-- A GeoJSON-style geometry object with its `type` tag and its
`coordinates` member (a list of rings, as used by the `Polygon` code
paths of the source). -/
structure Geometry where
  type : String
  coordinates : List LinearRing
deriving DecidableEq

/-- A ring is closed when it is non-empty and its first and last points are
identical. -/
def IsClosedRing (r : LinearRing) : Prop :=
  r ≠ [] ∧ r.head? = r.getLast?

/-- Shared concrete inputs for the witnesses in this development: the
constant tapes of draws `1/2` and `1/4` (both valid) and small concrete
geometries. -/
def tapeHalf : ℕ → ℚ := fun _ => 1 / 2

theorem tapeHalf_valid : ValidTape tapeHalf := by
  intro n
  constructor <;> norm_num [tapeHalf]

def tapeQuarter : ℕ → ℚ := fun _ => 1 / 4

theorem tapeQuarter_valid : ValidTape tapeQuarter := by
  intro n
  constructor <;> norm_num [tapeQuarter]

def geomEmpty : Geometry := ⟨"Polygon", []⟩

/-- A closed 4-point square-corner ring. -/
def ringQ : LinearRing := [(0, 0), (1, 0), (0, 1), (0, 0)]

/-- What the refiner makes of `ringQ` on the constant tape `1/4`:
both interior vertices are displaced by `-3/160000` in each coordinate and
no densification point is inserted. -/
def ringQOut : LinearRing :=
  [(0, 0), (159997 / 160000, -3 / 160000), (-3 / 160000, 159997 / 160000), (0, 0)]

/-! ## Land-use classification (`land_use.py`) -/

namespace LandUse

/-- The fixed, ordered list of land-use categories
(`LAND_USE_CATEGORIES`, `land_use.py` lines 18-29). -/
def LAND_USE_CATEGORIES : List String :=
  ["agricultural", "residential", "commercial", "industrial", "forestry",
   "recreational", "conservation", "transportation", "institutional",
   "mixed_use"]

/-- One alternative entry `{"landUse": ..., "confidence": ...}` appended at
`land_use.py` lines 127-130. -/
structure Alternative where
  landUse : String
  confidence : ℚ
deriving DecidableEq

/-- `random.sample(population, k)`: draw `k` distinct elements without
replacement.  Modelled by repeatedly drawing a uniform position in the not
yet chosen remainder; `none` is the `ValueError` Python raises when
`k` exceeds the population size. -/
def sample (tape : ℕ → ℚ) (population : List String) (k : ℕ) (idx : ℕ) :
    Option (List String × ℕ) :=
  match k with
  | 0 => some ([], idx)
  | k + 1 =>
    if population.length = 0 then none
    else
      let (i, idx1) := randint tape 0 (population.length - 1) idx
      match population[i]? with
      | none => none
      | some x =>
        match sample tape (population.eraseIdx i) k idx1 with
        | some (xs, idx2) => some (x :: xs, idx2)
        | none => none

/-- The confidence-distribution loop of `detect_land_use`
(`land_use.py` lines 117-130): every alternative except the last receives
`remaining * (random.random() * 0.7)` which is then subtracted from the
remaining mass; the last alternative receives the remainder. -/
def distribute (tape : ℕ → ℚ) (remaining : ℚ) (cats : List String)
    (idx : ℕ) : List Alternative × ℕ :=
  match cats with
  | [] => ([], idx)
  | [c] => ([⟨c, remaining⟩], idx)
  | c :: c2 :: rest =>
    let (u, idx1) := rand tape idx
    let portion := u * (7 / 10)
    let confidence := remaining * portion
    let (tail, idx2) := distribute tape (remaining - confidence) (c2 :: rest) idx1
    (⟨c, confidence⟩ :: tail, idx2)

/-- Stable insertion of an alternative into a list sorted by descending
confidence: the new element goes in front of the first entry whose
confidence does not exceed its own.  Since `sortDesc` inserts each entry
into the sorted version of the entries drawn after it, equal confidences
keep their draw order. -/
def insertDesc (a : Alternative) : List Alternative → List Alternative
  | [] => [a]
  | b :: l => if b.confidence ≤ a.confidence then a :: b :: l
              else b :: insertDesc a l

/-- `alternatives.sort(key=lambda x: x["confidence"], reverse=True)`
(`land_use.py` line 133): a stable sort by descending confidence. -/
def sortDesc : List Alternative → List Alternative
  | [] => []
  | a :: l => insertDesc a (sortDesc l)

/-- `detect_land_use` (`land_use.py` lines 80-135) up to but not including
the final in-place sort: primary-category choice, primary confidence,
alternative sampling and confidence distribution, in source order.  The
`geometry` argument is only used to select an imagery sample and does not
influence the result.  `none` models an uncaught Python exception (it
cannot occur on a valid tape). -/
def detect_land_use_core (geometry : Geometry) (tape : ℕ → ℚ) (idx : ℕ) :
    Option (String × ℚ × List Alternative × ℕ) :=
  let (u0, idx1) := rand tape idx
  let (primary_idx, idx2) :=
    if u0 < 2 / 5 then (0, idx1)
    else randint tape 0 (LAND_USE_CATEGORIES.length - 1) idx1
  match LAND_USE_CATEGORIES[primary_idx]? with
  | none => none
  | some primary_category =>
    let (u1, idx3) := rand tape idx2
    let primary_confidence := 65 / 100 + u1 * (3 / 10)
    let remaining_confidence := 1 - primary_confidence
    let (num_alternatives, idx4) := randint tape 2 4 idx3
    match sample tape (LAND_USE_CATEGORIES.filter (fun c => c ≠ primary_category))
        num_alternatives idx4 with
    | none => none
    | some (alternative_categories, idx5) =>
      let (alternatives, idx6) :=
        distribute tape remaining_confidence alternative_categories idx5
      some (primary_category, primary_confidence, alternatives, idx6)

/-- `detect_land_use` (`land_use.py` lines 80-135): the core computation
followed by the stable descending sort of the alternatives. -/
def detect_land_use (geometry : Geometry) (tape : ℕ → ℚ) (idx : ℕ) :
    Option (String × ℚ × List Alternative × ℕ) :=
  match detect_land_use_core geometry tape idx with
  | some (c, conf, alternatives, idx') => some (c, conf, sortDesc alternatives, idx')
  | none => none

/-- Sum of the confidences of a list of alternatives. -/
def sumConf (l : List Alternative) : ℚ :=
  (l.map Alternative.confidence).sum

/-- The descriptive record returned by `get_land_use_details`. -/
structure LandUseDetails where
  description : String
  typical_features : List String
  subdivisions : List String
deriving DecidableEq

/-- The literal `details` dictionary of `get_land_use_details`
(`land_use.py` lines 147-198), as an association list in source order. -/
def details_table : List (String × LandUseDetails) :=
  [("agricultural",
    ⟨"Land used for farming, crop production, or livestock",
     ["crop patterns", "irrigation systems", "farm buildings"],
     ["arable", "pasture", "orchard", "vineyard", "plantation"]⟩),
   ("residential",
    ⟨"Land used for housing and living quarters",
     ["houses", "apartment buildings", "streets", "yards"],
     ["single-family", "multi-family", "high-density", "rural"]⟩),
   ("commercial",
    ⟨"Land used for business and commerce",
     ["office buildings", "retail stores", "parking lots"],
     ["retail", "office", "hospitality", "services"]⟩),
   ("industrial",
    ⟨"Land used for manufacturing and processing",
     ["factories", "warehouses", "heavy equipment", "storage yards"],
     ["light", "heavy", "extractive", "waste management"]⟩),
   ("forestry",
    ⟨"Land covered by forests, managed for timber or conservation",
     ["trees", "forest roads", "cleared areas"],
     ["natural", "plantation", "managed", "protected"]⟩),
   ("recreational",
    ⟨"Land used for leisure and recreation",
     ["parks", "sports fields", "playgrounds"],
     ["parks", "sports", "entertainment", "tourism"]⟩),
   ("conservation",
    ⟨"Land protected for environmental preservation",
     ["natural habitats", "limited development", "protected areas"],
     ["nature reserve", "wildlife sanctuary", "protected watershed"]⟩),
   ("transportation",
    ⟨"Land used for transportation infrastructure",
     ["roads", "railways", "airports", "ports"],
     ["road", "rail", "air", "water"]⟩),
   ("institutional",
    ⟨"Land used for public institutions and services",
     ["government buildings", "schools", "hospitals"],
     ["education", "healthcare", "government", "religious"]⟩),
   ("mixed_use",
    ⟨"Land with multiple combined uses",
     ["combination of buildings", "mixed development"],
     ["residential-commercial", "live-work", "integrated"]⟩)]

/-- The placeholder record of the `details.get(category, {...})` default
(`land_use.py` lines 200-204). -/
def unknown_details : LandUseDetails :=
  ⟨"Unknown land use category", [], []⟩

/-- `get_land_use_details` (`land_use.py` lines 137-204):
`details.get(category, default)` — a total lookup with a placeholder
default, never an exception. -/
def get_land_use_details (category : String) : LandUseDetails :=
  match details_table.lookup category with
  | some d => d
  | none => unknown_details

end LandUse

/-! ## Boundary detection (`boundary_detection.py`) -/

namespace Boundary

/-- The per-vertex perturbation loop of `refine_polygon`
(`boundary_detection.py` lines 216-231): points at index `0` and at index
`len(ring) - 1` are appended unchanged; every other point receives an
independent signed offset of at most `(1 - certainty) * 0.0001` in each
coordinate.  `n` is the length of the ring being traversed and `i` the
index of the head of `points` within it. -/
def perturb_points (tape : ℕ → ℚ) (n : ℕ) (i : ℕ) (points : LinearRing)
    (idx : ℕ) : LinearRing × ℕ :=
  match points with
  | [] => ([], idx)
  | point :: rest =>
    if i = 0 ∨ i = n - 1 then
      let (tail, idx') := perturb_points tape n (i + 1) rest idx
      (point :: tail, idx')
    else
      let (certainty, idx1) := rand tape idx
      let adjustment := (1 - certainty) * (1 / 10000)
      let (u1, idx2) := rand tape idx1
      let (u2, idx3) := rand tape idx2
      let improved_point : Point :=
        (point.1 + (u1 - 1 / 2) * adjustment, point.2 + (u2 - 1 / 2) * adjustment)
      let (tail, idx4) := perturb_points tape n (i + 1) rest idx3
      (improved_point :: tail, idx4)

/-- One iteration of the densification loop of `refine_polygon`
(`boundary_detection.py` lines 239-250): draw
`insert_idx = random.randint(1, len(improved_ring) - 2)`, read the segment
endpoints at `insert_idx` and `insert_idx + 1`, and insert their midpoint
plus a small offset at position `insert_idx + 1`.  `none` models the
`ValueError` of an empty `randint` range (`len(improved_ring) < 3`) or an
out-of-range index access. -/
def densify_step (tape : ℕ → ℚ) (improved_ring : LinearRing) (idx : ℕ) :
    Option (LinearRing × ℕ) :=
  if 1 ≤ improved_ring.length - 2 then
    let ri := randint tape 1 (improved_ring.length - 2) idx
    match improved_ring[ri.1]?, improved_ring[ri.1 + 1]? with
    | some a, some b =>
      let r1 := rand tape ri.2
      let r2 := rand tape r1.2
      let new_point : Point :=
        ((a.1 + b.1) / 2 + (r1.1 - 1 / 2) * (5 / 100000),
         (a.2 + b.2) / 2 + (r2.1 - 1 / 2) * (5 / 100000))
      some (improved_ring.insertIdx (ri.1 + 1) new_point, r2.2)
    | _, _ => none
  else none

/-- The densification loop ran `count` times
(`for _ in range(random.randint(0, 2))`, lines 237-250). -/
def densify_loop (tape : ℕ → ℚ) (count : ℕ) (improved_ring : LinearRing)
    (idx : ℕ) : Option (LinearRing × ℕ) :=
  match count with
  | 0 => some (improved_ring, idx)
  | count + 1 =>
    match densify_step tape improved_ring idx with
    | some (ring', idx') => densify_loop tape count ring' idx'
    | none => none

/-- The defensive re-close of `refine_polygon`
(`boundary_detection.py` lines 252-254): if the first and last points
differ, append a copy of the first point.  `none` models the `IndexError`
of `improved_ring[0]` on an empty ring. -/
def ensure_closed (improved_ring : LinearRing) : Option LinearRing :=
  match improved_ring.head?, improved_ring.getLast? with
  | some first, some last =>
    if first ≠ last then some (improved_ring ++ [first])
    else some improved_ring
  | _, _ => none

/-- The body of the per-ring loop of `refine_polygon`
(`boundary_detection.py` lines 213-256): perturbation, then — only when
the original ring has fewer than 20 points — 0-2 densification steps,
then the defensive re-close. -/
def refine_ring (tape : ℕ → ℚ) (ring : LinearRing) (idx : ℕ) :
    Option (LinearRing × ℕ) :=
  let pr := perturb_points tape ring.length 0 ring idx
  let densified : Option (LinearRing × ℕ) :=
    if ring.length < 20 then
      let nr := randint tape 0 2 pr.2
      densify_loop tape nr.1 pr.1 nr.2
    else
      some pr
  match densified with
  | some rd =>
    match ensure_closed rd.1 with
    | some ring3 => some (ring3, rd.2)
    | none => none
  | none => none

/-- The `for ring in geometry.coordinates` loop of `refine_polygon`
(`boundary_detection.py` lines 211-256): every ring — exterior and holes
alike — goes through `refine_ring`. -/
def refine_rings (tape : ℕ → ℚ) (rings : List LinearRing) (idx : ℕ) :
    Option (List LinearRing × ℕ) :=
  match rings with
  | [] => some ([], idx)
  | ring :: rest =>
    match refine_ring tape ring idx with
    | some (r, idx1) =>
      match refine_rings tape rest idx1 with
      | some (rs, idx2) => some (r :: rs, idx2)
      | none => none
    | none => none

/-- `refine_polygon` (`boundary_detection.py` lines 193-264): for a
`"Polygon"` geometry, refine every ring; for any other `type`, return a
geometry with the same `type` and the same `coordinates`. -/
def refine_polygon (tape : ℕ → ℚ) (geometry : Geometry) (idx : ℕ) :
    Option (Geometry × ℕ) :=
  if geometry.type = "Polygon" then
    match refine_rings tape geometry.coordinates idx with
    | some (improved_rings, idx') => some (⟨geometry.type, improved_rings⟩, idx')
    | none => none
  else
    some (⟨geometry.type, geometry.coordinates⟩, idx)

/-- The vertex loop of `generate_realistic_polygon`
(`boundary_detection.py` lines 165-180): for each index `i`, draw a radius
factor in `[0.7, 1.0)`, a noise factor in `[0, 0.2)` and an angular jitter
in `[0, 0.2)`, and emit the point `[lon, lat]` obtained from the jittered
angle.  `sinq`, `cosq` and `piq` stand for `math.sin`, `math.cos` and
`math.pi`; `k` counts the remaining iterations. -/
def gen_vertices (tape : ℕ → ℚ) (sinq cosq : ℚ → ℚ) (piq : ℚ)
    (center_lat center_lon radius_lat radius_lon : ℚ) (num_points : ℕ)
    (i : ℕ) (k : ℕ) (idx : ℕ) : List Point × ℕ :=
  match k with
  | 0 => ([], idx)
  | k + 1 =>
    let angle := ((i : ℚ) / (num_points : ℚ)) * 2 * piq
    let r1 := rand tape idx
    let radius_factor := 7 / 10 + r1.1 * (3 / 10)
    let r2 := rand tape r1.2
    let noise := r2.1 * (1 / 5)
    let r3 := rand tape r2.2
    let angle_noise := r3.1 * (1 / 5)
    let lat := center_lat + sinq (angle + angle_noise) * radius_lat * radius_factor * (1 + noise)
    let lon := center_lon + cosq (angle + angle_noise) * radius_lon * radius_factor * (1 + noise)
    let rest :=
      gen_vertices tape sinq cosq piq center_lat center_lon radius_lat radius_lon
        num_points (i + 1) k r3.2
    ((lon, lat) :: rest.1, rest.2)

/-- `generate_realistic_polygon` (`boundary_detection.py` lines 144-191):
choose `num_points = random.randint(6, 10)`, generate that many vertices,
close the ring by appending a copy of the first point, and wrap the single
ring in a `"Polygon"` geometry.  `none` models the `IndexError` of
`coords[0]` on an empty vertex list (impossible on a valid tape). -/
def generate_realistic_polygon (tape : ℕ → ℚ) (sinq cosq : ℚ → ℚ) (piq : ℚ)
    (center_lat center_lon radius_m : ℚ) (idx : ℕ) : Option (Geometry × ℕ) :=
  let radius_lat := radius_m / 110540
  let radius_lon := radius_m / (111320 * cosq (center_lat * piq / 180))
  let ni := randint tape 6 10 idx
  let gc :=
    gen_vertices tape sinq cosq piq center_lat center_lon radius_lat radius_lon
      ni.1 0 ni.1 ni.2
  match gc.1.head? with
  | some first => some (⟨"Polygon", [gc.1 ++ [first]]⟩, gc.2)
  | none => none

/-- `detect_boundaries_from_coords` (`boundary_detection.py` lines 66-96),
restricted to its result: the generated polygon together with the
confidence `0.75 + random.random() * 0.2` (line 94).  Model loading and
imagery fetching influence neither value. -/
def detect_boundaries_from_coords (tape : ℕ → ℚ) (sinq cosq : ℚ → ℚ)
    (piq : ℚ) (lat lon radius_m : ℚ) (idx : ℕ) : Option (Geometry × ℚ × ℕ) :=
  match generate_realistic_polygon tape sinq cosq piq lat lon radius_m idx with
  | some gp =>
    let ru := rand tape gp.2
    some (gp.1, 3 / 4 + ru.1 * (1 / 5), ru.2)
  | none => none

end Boundary

/-! ## Pointer-level model of `refine_polygon` for the frame property

Python point coordinates are mutable list objects.  To state that
`refine_polygon` never mutates its input we track point-object identity: an
`Arena` holds every point object ever allocated, a ring is a list of
pointers into it, and the embedding mirrors the source line by line —
`improved_ring.append(point)` shares the input pointer, building
`improved_point` / `new_point` / `improved_ring[0].copy()` allocates a
fresh cell. -/

namespace Alias

/-- Identity of one Python point object. -/
abbrev Ptr := ℕ

/-- All point objects in existence; a `Ptr` indexes into `cells`. -/
structure Arena where
  cells : List Point

/-- Allocate a fresh point object holding value `p`. -/
def Arena.alloc (s : Arena) (p : Point) : Ptr × Arena :=
  (s.cells.length, ⟨s.cells ++ [p]⟩)

/-- Read the current value of a point object. -/
def Arena.read (s : Arena) (i : Ptr) : Option Point :=
  s.cells[i]?

/-- A geometry whose rings hold point-object identities. -/
structure GeometryR where
  type : String
  coordinates : List (List Ptr)

/-- `s'` holds every object of `s`, with its value untouched, plus newly
allocated ones. -/
def Extends (s s' : Arena) : Prop :=
  ∃ t, s'.cells = s.cells ++ t

/-- The perturbation loop (`boundary_detection.py` lines 216-231) at the
pointer level: index `0` and the closing index append the input point
object itself; interior indices read the input value and allocate a fresh
`improved_point`. -/
def perturb_points_st (tape : ℕ → ℚ) (n i : ℕ) (points : List Ptr)
    (idx : ℕ) (s : Arena) : Option (List Ptr × ℕ × Arena) :=
  match points with
  | [] => some ([], idx, s)
  | p :: rest =>
    if i = 0 ∨ i = n - 1 then
      match perturb_points_st tape n (i + 1) rest idx s with
      | some (tail, idx', s') => some (p :: tail, idx', s')
      | none => none
    else
      match s.read p with
      | none => none
      | some pv =>
        let c := rand tape idx
        let adjustment := (1 - c.1) * (1 / 10000)
        let r1 := rand tape c.2
        let r2 := rand tape r1.2
        let al := s.alloc
          (pv.1 + (r1.1 - 1 / 2) * adjustment, pv.2 + (r2.1 - 1 / 2) * adjustment)
        match perturb_points_st tape n (i + 1) rest r2.2 al.2 with
        | some (tail, idx4, s2) => some (al.1 :: tail, idx4, s2)
        | none => none

/-- One densification step (lines 239-250) at the pointer level: the
midpoint `new_point` is a fresh allocation; the segment endpoints are only
read. -/
def densify_step_st (tape : ℕ → ℚ) (improved_ring : List Ptr) (idx : ℕ)
    (s : Arena) : Option (List Ptr × ℕ × Arena) :=
  if 1 ≤ improved_ring.length - 2 then
    let ri := randint tape 1 (improved_ring.length - 2) idx
    match improved_ring[ri.1]?, improved_ring[ri.1 + 1]? with
    | some pa, some pb =>
      match s.read pa, s.read pb with
      | some a, some b =>
        let r1 := rand tape ri.2
        let r2 := rand tape r1.2
        let al := s.alloc
          ((a.1 + b.1) / 2 + (r1.1 - 1 / 2) * (5 / 100000),
           (a.2 + b.2) / 2 + (r2.1 - 1 / 2) * (5 / 100000))
        some (improved_ring.insertIdx (ri.1 + 1) al.1, r2.2, al.2)
      | _, _ => none
    | _, _ => none
  else none

/-- The densification loop ran `count` times, pointer level. -/
def densify_loop_st (tape : ℕ → ℚ) (count : ℕ) (improved_ring : List Ptr)
    (idx : ℕ) (s : Arena) : Option (List Ptr × ℕ × Arena) :=
  match count with
  | 0 => some (improved_ring, idx, s)
  | count + 1 =>
    match densify_step_st tape improved_ring idx s with
    | some (ring', idx', s') => densify_loop_st tape count ring' idx' s'
    | none => none

/-- The defensive re-close (lines 252-254) at the pointer level:
`improved_ring[0] != improved_ring[-1]` compares the current values of the
two point objects, and `improved_ring[0].copy()` allocates a fresh copy. -/
def ensure_closed_st (improved_ring : List Ptr) (s : Arena) :
    Option (List Ptr × Arena) :=
  match improved_ring.head?, improved_ring.getLast? with
  | some firstp, some lastp =>
    match s.read firstp, s.read lastp with
    | some fv, some lv =>
      if fv ≠ lv then
        let al := s.alloc fv
        some (improved_ring ++ [al.1], al.2)
      else some (improved_ring, s)
    | _, _ => none
  | _, _ => none

/-- One ring of the per-ring loop (lines 213-256), pointer level. -/
def refine_ring_st (tape : ℕ → ℚ) (ring : List Ptr) (idx : ℕ) (s : Arena) :
    Option (List Ptr × ℕ × Arena) :=
  match perturb_points_st tape ring.length 0 ring idx s with
  | none => none
  | some pr =>
    let densified : Option (List Ptr × ℕ × Arena) :=
      if ring.length < 20 then
        let nr := randint tape 0 2 pr.2.1
        densify_loop_st tape nr.1 pr.1 nr.2 pr.2.2
      else
        some pr
    match densified with
    | some rd =>
      match ensure_closed_st rd.1 rd.2.2 with
      | some cl => some (cl.1, rd.2.1, cl.2)
      | none => none
    | none => none

/-- The `for ring in geometry.coordinates` loop, pointer level. -/
def refine_rings_st (tape : ℕ → ℚ) (rings : List (List Ptr)) (idx : ℕ)
    (s : Arena) : Option (List (List Ptr) × ℕ × Arena) :=
  match rings with
  | [] => some ([], idx, s)
  | ring :: rest =>
    match refine_ring_st tape ring idx s with
    | some (r, idx1, s1) =>
      match refine_rings_st tape rest idx1 s1 with
      | some (rs, idx2, s2) => some (r :: rs, idx2, s2)
      | none => none
    | none => none

/-- `refine_polygon` (lines 193-264) at the pointer level.  The
non-`Polygon` branch shares the whole input `coordinates` structure. -/
def refine_polygon_st (tape : ℕ → ℚ) (geometry : GeometryR) (idx : ℕ)
    (s : Arena) : Option (GeometryR × ℕ × Arena) :=
  if geometry.type = "Polygon" then
    match refine_rings_st tape geometry.coordinates idx s with
    | some (improved_rings, idx', s') =>
      some (⟨geometry.type, improved_rings⟩, idx', s')
    | none => none
  else
    some (⟨geometry.type, geometry.coordinates⟩, idx, s)

/-- The coordinate sums of `improve_existing_boundary`
(`boundary_detection.py` lines 115-116): pure reads of every point of the
first ring. -/
def sum_coords_st (coords : List Ptr) (s : Arena) : Option (ℚ × ℚ) :=
  match coords with
  | [] => some (0, 0)
  | p :: rest =>
    match s.read p, sum_coords_st rest s with
    | some pv, some (lon_sum, lat_sum) => some (pv.1 + lon_sum, pv.2 + lat_sum)
    | _, _ => none

/-- `improve_existing_boundary` (`boundary_detection.py` lines 98-142) at
the pointer level.  The center/radius computation (lines 112-128) only
reads the input and feeds the imagery fetch, whose result never reaches
the returned geometry; `sqrtq`/`cosq`/`piq` stand for `math.sqrt`,
`math.cos` and `math.pi`.  The returned geometry is `refine_polygon` of
the input, and the confidence is `0.85 + random.random() * 0.14`
(line 140). -/
def improve_existing_boundary_st (tape : ℕ → ℚ) (sqrtq cosq : ℚ → ℚ)
    (piq : ℚ) (geometry : GeometryR) (idx : ℕ) (s : Arena) :
    Option (GeometryR × ℚ × ℕ × Arena) :=
  let center_radius : Option (ℚ × ℚ × ℚ) :=
    if geometry.type = "Polygon" then
      match geometry.coordinates[0]? with
      | none => none
      | some coords =>
        if coords.length = 0 then none
        else
          match sum_coords_st coords s with
          | none => none
          | some (lon_sum, lat_sum) =>
            let center_lon := lon_sum / (coords.length : ℚ)
            let center_lat := lat_sum / (coords.length : ℚ)
            match coords[0]? with
            | none => none
            | some firstp =>
              match s.read firstp with
              | none => none
              | some first_point =>
                let dx := (first_point.1 - center_lon) * 111320 *
                  cosq (center_lat * piq / 180)
                let dy := (first_point.2 - center_lat) * 110540
                some (center_lat, center_lon, sqrtq (dx * dx + dy * dy))
    else
      some (0, 0, 500)
  match center_radius with
  | none => none
  | some _ =>
    match refine_polygon_st tape geometry idx s with
    | none => none
    | some rp =>
      let ru := rand tape rp.2.1
      some (rp.1, 85 / 100 + ru.1 * (14 / 100), ru.2, rp.2.2)

end Alias

/-! ## Lemmas about the land-use scorer -/

namespace LandUse

/-- The distribution loop labels its output with exactly the sampled
categories, in draw order. -/
theorem distribute_labels (tape : ℕ → ℚ) (cats : List String) :
    ∀ remaining idx,
      ((distribute tape remaining cats idx).1.map Alternative.landUse) = cats := by
  induction cats with
  | nil => intro remaining idx; simp [distribute]
  | cons c rest ih =>
    intro remaining idx
    cases rest with
    | nil => simp [distribute]
    | cons c2 rest2 =>
      simp only [distribute, rand, List.map_cons]
      exact congrArg (c :: ·) (ih _ _)

/-- The distribution loop conserves the probability mass: over a non-empty
category list the confidences sum to exactly the remaining mass. -/
theorem distribute_sum (tape : ℕ → ℚ) (cats : List String) (h : cats ≠ []) :
    ∀ remaining idx, sumConf (distribute tape remaining cats idx).1 = remaining := by
  induction cats with
  | nil => exact absurd rfl h
  | cons c rest ih =>
    intro remaining idx
    cases rest with
    | nil => simp [distribute, sumConf]
    | cons c2 rest2 =>
      simp only [distribute, rand, sumConf, List.map_cons, List.sum_cons]
      have := ih (List.cons_ne_nil c2 rest2)
        (remaining - remaining * (tape idx * (7 / 10))) (idx + 1)
      rw [sumConf] at this
      rw [this]
      ring

/-- Every confidence produced by the distribution loop is non-negative
whenever the incoming remaining mass is. -/
theorem distribute_nonneg (tape : ℕ → ℚ) (ht : ValidTape tape)
    (cats : List String) :
    ∀ remaining idx, 0 ≤ remaining →
      ∀ a ∈ (distribute tape remaining cats idx).1, 0 ≤ a.confidence := by
  induction cats with
  | nil => intro remaining idx _ a ha; simp [distribute] at ha
  | cons c rest ih =>
    intro remaining idx hrem a ha
    cases rest with
    | nil =>
      simp only [distribute, List.mem_singleton] at ha
      subst ha
      exact hrem
    | cons c2 rest2 =>
      obtain ⟨h0, h1⟩ := ht idx
      simp only [distribute, rand, List.mem_cons] at ha
      rcases ha with ha | ha
      · subst ha
        exact mul_nonneg hrem (by positivity)
      · refine ih (remaining - remaining * (tape idx * (7 / 10))) (idx + 1) ?_ a ha
        nlinarith

/-- `insertDesc` is a permutation with the inserted element on top. -/
theorem insertDesc_perm (a : Alternative) (l : List Alternative) :
    (insertDesc a l).Perm (a :: l) := by
  induction l with
  | nil => simp [insertDesc]
  | cons b l ih =>
    by_cases hb : b.confidence ≤ a.confidence
    · simp [insertDesc, hb]
    · simp only [insertDesc, if_neg hb]
      exact (ih.cons b).trans (List.Perm.swap a b l)

/-- `sortDesc` is a permutation of its input. -/
theorem sortDesc_perm (l : List Alternative) : (sortDesc l).Perm l := by
  induction l with
  | nil => simp [sortDesc]
  | cons a l ih =>
    exact (insertDesc_perm a (sortDesc l)).trans (ih.cons a)

/-- `insertDesc` preserves the descending-confidence invariant. -/
theorem insertDesc_pairwise (a : Alternative) (l : List Alternative)
    (h : List.Pairwise (fun x y => y.confidence ≤ x.confidence) l) :
    List.Pairwise (fun x y => y.confidence ≤ x.confidence) (insertDesc a l) := by
  induction l with
  | nil => simp [insertDesc]
  | cons b l ih =>
    rw [List.pairwise_cons] at h
    obtain ⟨hb, hl⟩ := h
    by_cases hba : b.confidence ≤ a.confidence
    · rw [insertDesc, if_pos hba, List.pairwise_cons, List.pairwise_cons]
      refine ⟨?_, hb, hl⟩
      intro x hx
      rcases List.mem_cons.1 hx with rfl | hx
      · exact hba
      · exact le_trans (hb x hx) hba
    · rw [insertDesc, if_neg hba, List.pairwise_cons]
      constructor
      · intro x hx
        rcases List.mem_cons.1 (((insertDesc_perm a l).mem_iff).1 hx) with rfl | hx
        · exact le_of_lt (lt_of_not_le hba)
        · exact hb x hx
      · exact ih hl

/-- The sorted alternatives are in descending confidence order. -/
theorem sortDesc_pairwise (l : List Alternative) :
    List.Pairwise (fun x y => y.confidence ≤ x.confidence) (sortDesc l) := by
  induction l with
  | nil => simp [sortDesc]
  | cons a l ih => exact insertDesc_pairwise a (sortDesc l) ih

/-- Stability of `insertDesc`, expressed per confidence value: the
subsequence of entries carrying any fixed confidence is preserved. -/
theorem filter_insertDesc (a : Alternative) (l : List Alternative) (q : ℚ) :
    (insertDesc a l).filter (fun x => x.confidence = q) =
      if a.confidence = q then a :: l.filter (fun x => x.confidence = q)
      else l.filter (fun x => x.confidence = q) := by
  induction l with
  | nil => by_cases h : a.confidence = q <;> simp [insertDesc, h]
  | cons b l ih =>
    by_cases hba : b.confidence ≤ a.confidence
    · rw [insertDesc, if_pos hba]
      by_cases ha : a.confidence = q <;> by_cases hb : b.confidence = q <;>
        simp [List.filter_cons, ha, hb]
    · have hlt : a.confidence < b.confidence := lt_of_not_le hba
      rw [insertDesc, if_neg hba]
      by_cases ha : a.confidence = q
      · have hbq : b.confidence ≠ q := by
          intro hb
          rw [hb, ha] at hlt
          exact lt_irrefl q hlt
        simp [List.filter_cons, ha, hbq, ih]
      · by_cases hb : b.confidence = q <;>
          simp [List.filter_cons, ha, hb, ih]

/-- Stability of `sortDesc`: for every confidence value, the entries
carrying it appear in the sorted output in their original order. -/
theorem filter_sortDesc (l : List Alternative) (q : ℚ) :
    (sortDesc l).filter (fun x => x.confidence = q) =
      l.filter (fun x => x.confidence = q) := by
  induction l with
  | nil => simp [sortDesc]
  | cons a l ih =>
    rw [sortDesc, filter_insertDesc]
    by_cases ha : a.confidence = q <;> simp [ha, List.filter_cons, ih]

end LandUse

/-- An element of a list found by a successful index lookup is a member of
the list. -/
theorem mem_of_some_getElem? {α : Type} {l : List α} {i : ℕ} {x : α}
    (h : l[i]? = some x) : x ∈ l := by
  rw [List.getElem?_eq_some] at h
  obtain ⟨hi, rfl⟩ := h
  exact List.getElem_mem hi

/-- An element read from position `i` of a duplicate-free list does not
occur in the list with position `i` removed. -/
theorem not_mem_eraseIdx_of_nodup {α : Type} {l : List α} {i : ℕ} {x : α}
    (hnd : l.Nodup) (hget : l[i]? = some x) : x ∉ l.eraseIdx i := by
  intro hmem
  rw [List.mem_eraseIdx_iff_getElem] at hmem
  obtain ⟨j, hj, hji, hx⟩ := hmem
  rw [List.getElem?_eq_some] at hget
  obtain ⟨hi, hxi⟩ := hget
  have : l[j] = l[i] := by
    rw [hx, ← hxi]
  exact hji ((hnd.getElem_inj_iff).1 this)

namespace LandUse

/-- `sample` returns exactly `k` elements, all drawn from the population,
without repetition when the population has none. -/
theorem sample_spec (tape : ℕ → ℚ) :
    ∀ (k : ℕ) (population : List String) (idx idx' : ℕ) (xs : List String),
      sample tape population k idx = some (xs, idx') →
      xs.length = k ∧ (∀ x ∈ xs, x ∈ population) ∧
        (population.Nodup → xs.Nodup) := by
  intro k
  induction k with
  | zero =>
    intro population idx idx' xs h
    simp only [sample, Option.some.injEq, Prod.mk.injEq] at h
    obtain ⟨h1, _⟩ := h
    subst h1
    exact ⟨rfl, by simp, fun _ => List.nodup_nil⟩
  | succ k ih =>
    intro population idx idx' xs h
    rw [sample] at h
    split at h
    all_goals try exact Option.noConfusion h
    split at h
    split at h
    all_goals try exact Option.noConfusion h
    split at h
    all_goals try exact Option.noConfusion h
    rename_i x hget o1 xs' idx2 hrec
    simp only [Option.some.injEq, Prod.mk.injEq] at h
    obtain ⟨h1, _⟩ := h
    subst h1
    obtain ⟨hlen, hmem, hnd⟩ := ih _ _ _ _ hrec
    refine ⟨by simp [hlen], ?_, ?_⟩
    · intro y hy
      rcases List.mem_cons.1 hy with rfl | hy
      · exact mem_of_some_getElem? hget
      · exact List.Sublist.mem (hmem y hy) (List.eraseIdx_sublist _ _)
    · intro hpop
      rw [List.nodup_cons]
      refine ⟨?_, hnd ((List.eraseIdx_sublist _ _).nodup hpop)⟩
      intro hx
      exact not_mem_eraseIdx_of_nodup hpop hget (hmem x hx)

end LandUse

namespace LandUse

/-- Inversion of a successful `detect_land_use_core` run: the primary
confidence lies in `[0.65, 0.95)`, the primary label is a category, and the
unsorted alternatives are the distribution of `1 - primary_confidence`
over between 2 and 4 distinct non-primary categories. -/
theorem detect_land_use_core_inv (geometry : Geometry) (tape : ℕ → ℚ)
    (idx : ℕ) (primary : String) (conf : ℚ) (raw : List Alternative)
    (idx' : ℕ) (ht : ValidTape tape)
    (h : detect_land_use_core geometry tape idx = some (primary, conf, raw, idx')) :
    ∃ (cats : List String) (idx5 : ℕ),
      (65 / 100 : ℚ) ≤ conf ∧ conf < 95 / 100 ∧
      primary ∈ LAND_USE_CATEGORIES ∧
      2 ≤ cats.length ∧ cats.length ≤ 4 ∧
      (∀ c ∈ cats, c ∈ LAND_USE_CATEGORIES ∧ c ≠ primary) ∧
      cats.Nodup ∧
      raw = (distribute tape (1 - conf) cats idx5).1 := by
  rw [detect_land_use_core] at h
  split at h
  rename_i pr1 u idxA hequ
  split at h
  rename_i pr2 pidx idxB heqif
  split at h
  all_goals try exact Option.noConfusion h
  rename_i o1 primary_category hget
  split at h
  rename_i pr3 u1 idxC hequ1
  split at h
  rename_i pr4 num idxD heqn
  split at h
  all_goals try exact Option.noConfusion h
  rename_i o2 cats idxE hsample
  dsimp only at h
  simp only [Option.some.injEq, Prod.mk.injEq] at h
  obtain ⟨h1, h2, h3, _⟩ := h
  subst h1 h2 h3
  have hu1 : u1 = tape idxB := by
    rw [rand, Prod.mk.injEq] at hequ1
    exact hequ1.1.symm
  obtain ⟨hb0, hb1⟩ := ht idxB
  have hnum : num = (randint tape 2 4 idxC).1 := by
    rw [heqn]
  have hcount := randint_mem tape 2 4 idxC ht (by norm_num)
  obtain ⟨hlen, hmem, hnd⟩ := sample_spec tape _ _ _ _ _ hsample
  refine ⟨cats, idxE, by rw [hu1]; linarith, by rw [hu1]; linarith,
    mem_of_some_getElem? hget, ?_, ?_, ?_, ?_, rfl⟩
  · rw [hlen, hnum]; exact hcount.1
  · rw [hlen, hnum]; exact hcount.2
  · intro c hc
    have hcf := hmem c hc
    rw [List.mem_filter] at hcf
    refine ⟨hcf.1, ?_⟩
    simpa using hcf.2
  · refine hnd (List.Nodup.filter _ ?_)
    decide

/-- An association list none of whose keys is `a` has no entry for `a`. -/
theorem lookup_eq_none_of_no_key {β : Type} (l : List (String × β)) (a : String)
    (h : ∀ p ∈ l, p.1 ≠ a) : l.lookup a = none := by
  induction l with
  | nil => rfl
  | cons p rest ih =>
    obtain ⟨k, b⟩ := p
    have hk : (a == k) = false :=
      beq_eq_false_iff_ne.2 (Ne.symm (h (k, b) (List.mem_cons_self _ _)))
    rw [List.lookup_cons]
    simp only [hk]
    exact ih (fun q hq => h q (List.mem_cons_of_mem _ hq))

/-- The alternatives produced by `detect_land_use` on `tapeHalf` from
cursor 0, in sorted order. -/
def altsHalf : List Alternative :=
  [⟨"industrial", 169 / 2000⟩, ⟨"forestry", 7 / 100⟩, ⟨"conservation", 91 / 2000⟩]

/-- C1: for every scoring result produced by `detect_land_use` (on any
outcome of the random draws), the primary confidence plus the sum of all
alternative confidences is exactly 1 in exact rational arithmetic, and
every alternative confidence is non-negative. -/
theorem detect_land_use_mass_conservation
    (geometry : Geometry) (tape : ℕ → ℚ) (idx : ℕ) (primary : String)
    (conf : ℚ) (alts : List Alternative) (idx' : ℕ) (ht : ValidTape tape)
    (h : detect_land_use geometry tape idx = some (primary, conf, alts, idx')) :
    conf + sumConf alts = 1 ∧ ∀ a ∈ alts, 0 ≤ a.confidence := by
  rw [detect_land_use] at h
  split at h
  all_goals try exact Option.noConfusion h
  rename_i o c0 conf0 raw idx0 hcore
  simp only [Option.some.injEq, Prod.mk.injEq] at h
  obtain ⟨h1, h2, h3, _⟩ := h
  subst h1 h2 h3
  obtain ⟨cats, idx5, hc1, hc2, hpmem, hl2, hl4, hcats, hnd, hraweq⟩ :=
    detect_land_use_core_inv geometry tape idx c0 conf0 raw idx0 ht hcore
  have hcne : cats ≠ [] := by
    intro hc
    rw [hc] at hl2
    simp at hl2
  have hsum : sumConf (sortDesc raw) = sumConf raw := by
    rw [sumConf, sumConf]
    exact ((sortDesc_perm raw).map Alternative.confidence).sum_eq
  constructor
  · rw [hsum, hraweq, distribute_sum tape cats hcne (1 - conf0) idx5]
    ring
  · intro a ha
    have haraw : a ∈ raw := ((sortDesc_perm raw).mem_iff).1 ha
    rw [hraweq] at haraw
    exact distribute_nonneg tape ht cats (1 - conf0) idx5 (by linarith) a haraw

set_option maxHeartbeats 2000000 in
/-- Witness for C1: the theorem applied to the concrete run of
`detect_land_use` on the constant tape of draws `1/2`. -/
theorem detect_land_use_mass_conservation_witness :
    (4 / 5 : ℚ) + sumConf altsHalf = 1 ∧ ∀ a ∈ altsHalf, 0 ≤ a.confidence :=
  detect_land_use_mass_conservation geomEmpty tapeHalf 0 "recreational" (4 / 5)
    altsHalf 9 tapeHalf_valid
    (by norm_num +decide [detect_land_use, detect_land_use_core, sample, distribute,
      sortDesc, insertDesc, rand, randint, LAND_USE_CATEGORIES, Int.toNat,
      List.filter_cons, List.eraseIdx, tapeHalf, geomEmpty, altsHalf])

/-- C6: for every scoring result of `detect_land_use`, the alternatives
are sorted by confidence in descending order, number between 2 and 4, and
carry pairwise-distinct labels drawn from the fixed category set and
different from the primary label.  The final conjunct makes the stability
of the sort precise: the sorted list is the stable descending sort of the
unsorted alternatives of `detect_land_use_core`, so for every fixed
confidence value the entries carrying it keep their draw order. -/
theorem detect_land_use_alternatives_shape
    (geometry : Geometry) (tape : ℕ → ℚ) (idx : ℕ) (primary : String)
    (conf : ℚ) (alts : List Alternative) (idx' : ℕ) (ht : ValidTape tape)
    (h : detect_land_use geometry tape idx = some (primary, conf, alts, idx')) :
    List.Pairwise (fun x y => y.confidence ≤ x.confidence) alts ∧
    2 ≤ alts.length ∧ alts.length ≤ 4 ∧
    (alts.map Alternative.landUse).Nodup ∧
    (∀ a ∈ alts, a.landUse ≠ primary ∧ a.landUse ∈ LAND_USE_CATEGORIES) ∧
    ∃ (raw : List Alternative) (idx0 : ℕ),
      detect_land_use_core geometry tape idx = some (primary, conf, raw, idx0) ∧
      alts = sortDesc raw ∧
      ∀ q : ℚ, alts.filter (fun x => x.confidence = q) =
        raw.filter (fun x => x.confidence = q) := by
  rw [detect_land_use] at h
  split at h
  all_goals try exact Option.noConfusion h
  rename_i o c0 conf0 raw idx0 hcore
  simp only [Option.some.injEq, Prod.mk.injEq] at h
  obtain ⟨h1, h2, h3, h4⟩ := h
  subst h1 h2 h3 h4
  obtain ⟨cats, idx5, hc1, hc2, hpmem, hl2, hl4, hcats, hnd, hraweq⟩ :=
    detect_land_use_core_inv geometry tape idx c0 conf0 raw idx0 ht hcore
  have hlab : raw.map Alternative.landUse = cats := by
    rw [hraweq]
    exact distribute_labels tape cats (1 - conf0) idx5
  have hrawlen : raw.length = cats.length := by
    rw [← hlab, List.length_map]
  have hsortlen : (sortDesc raw).length = raw.length :=
    (sortDesc_perm raw).length_eq
  refine ⟨sortDesc_pairwise raw, ?_, ?_, ?_, ?_, raw, idx0, hcore, rfl,
    fun q => filter_sortDesc raw q⟩
  · rw [hsortlen, hrawlen]; exact hl2
  · rw [hsortlen, hrawlen]; exact hl4
  · refine (((sortDesc_perm raw).map Alternative.landUse).symm).nodup ?_
    rw [hlab]
    exact hnd
  · intro a ha
    have haraw : a ∈ raw := ((sortDesc_perm raw).mem_iff).1 ha
    have hmap : a.landUse ∈ raw.map Alternative.landUse :=
      List.mem_map_of_mem Alternative.landUse haraw
    rw [hlab] at hmap
    obtain ⟨hcat, hne⟩ := hcats a.landUse hmap
    exact ⟨hne, hcat⟩

set_option maxHeartbeats 2000000 in
/-- Witness for C6: the theorem applied to the concrete run of
`detect_land_use` on the constant tape of draws `1/2`. -/
theorem detect_land_use_alternatives_shape_witness :
    List.Pairwise (fun x y => y.confidence ≤ x.confidence) altsHalf ∧
    2 ≤ altsHalf.length ∧ altsHalf.length ≤ 4 ∧
    (altsHalf.map Alternative.landUse).Nodup ∧
    (∀ a ∈ altsHalf, a.landUse ≠ "recreational" ∧ a.landUse ∈ LAND_USE_CATEGORIES) ∧
    ∃ (raw : List Alternative) (idx0 : ℕ),
      detect_land_use_core geomEmpty tapeHalf 0 = some ("recreational", 4 / 5, raw, idx0) ∧
      altsHalf = sortDesc raw ∧
      ∀ q : ℚ, altsHalf.filter (fun x => x.confidence = q) =
        raw.filter (fun x => x.confidence = q) :=
  detect_land_use_alternatives_shape geomEmpty tapeHalf 0 "recreational" (4 / 5)
    altsHalf 9 tapeHalf_valid
    (by norm_num +decide [detect_land_use, detect_land_use_core, sample, distribute,
      sortDesc, insertDesc, rand, randint, LAND_USE_CATEGORIES, Int.toNat,
      List.filter_cons, List.eraseIdx, tapeHalf, geomEmpty, altsHalf])

/-- C8: the category-detail lookup is total and never fails — every one of
the 10 fixed categories is a key of the detail table and is sent to its
table record, and every other string is sent to the defined placeholder
record (description "Unknown land use category", empty feature and
subdivision lists). -/
theorem get_land_use_details_total :
    details_table.map Prod.fst = LAND_USE_CATEGORIES ∧
    ∀ category : String,
      (category ∈ LAND_USE_CATEGORIES →
        ∃ d, details_table.lookup category = some d ∧
          get_land_use_details category = d) ∧
      (category ∉ LAND_USE_CATEGORIES →
        get_land_use_details category = unknown_details) := by
  refine ⟨rfl, ?_⟩
  intro category
  constructor
  · intro hm
    fin_cases hm <;> exact ⟨_, rfl, rfl⟩
  · intro hm
    have hkeys : ∀ p ∈ details_table, p.1 ≠ category := by
      intro p hp he
      exact hm (he ▸ List.mem_map_of_mem Prod.fst hp)
    rw [get_land_use_details, lookup_eq_none_of_no_key details_table category hkeys]

/-- Witness for C8: the theorem applied to the known category "forestry"
and to the unknown string "swamp". -/
theorem get_land_use_details_total_witness :
    (∃ d, details_table.lookup "forestry" = some d ∧
      get_land_use_details "forestry" = d) ∧
    get_land_use_details "swamp" = unknown_details :=
  ⟨(get_land_use_details_total.2 "forestry").1 (by decide),
   (get_land_use_details_total.2 "swamp").2 (by decide)⟩

end LandUse

/-! ## Lemmas about the polygon refiner and synthesizer -/

namespace Boundary

/-- The perturbation pass does not change the number of points. -/
theorem perturb_points_length (tape : ℕ → ℚ) (n : ℕ) :
    ∀ (points : LinearRing) (i idx : ℕ),
      (perturb_points tape n i points idx).1.length = points.length := by
  intro points
  induction points with
  | nil => intro i idx; simp [perturb_points]
  | cons point rest ih =>
    intro i idx
    rw [perturb_points]
    by_cases hi : i = 0 ∨ i = n - 1
    · simp only [if_pos hi, List.length_cons]
      rw [ih]
    · simp only [if_neg hi, rand, List.length_cons]
      rw [ih]

/-- Absolute bound on one perturbation offset: the certainty draw and the
offset draw both lie in `[0,1)`, so the signed offset is at most
`0.5 * 0.0001` in magnitude, in particular at most `0.0001`. -/
theorem perturb_offset_bound (u c : ℚ) (hu0 : 0 ≤ u) (hu1 : u < 1)
    (hc0 : 0 ≤ c) (hc1 : c < 1) :
    |(u - 1 / 2) * ((1 - c) * (1 / 10000))| ≤ 1 / 10000 := by
  rw [abs_mul, abs_mul]
  have h1 : |u - 1 / 2| ≤ 1 / 2 := abs_le.2 ⟨by linarith, by linarith⟩
  have h2 : |1 - c| ≤ 1 := abs_le.2 ⟨by linarith, by linarith⟩
  have h3 : |(1 / 10000 : ℚ)| = 1 / 10000 := by norm_num
  rw [h3]
  nlinarith [abs_nonneg (u - 1 / 2), abs_nonneg (1 - c)]

/-- Pointwise effect of the perturbation pass: the point at any position
of the output differs from the point at the same position of the input by
at most `0.0001` degrees in each coordinate (points at the boundary
indices are copied verbatim, so their displacement is `0`). -/
theorem perturb_points_getElem_bound (tape : ℕ → ℚ) (ht : ValidTape tape)
    (n : ℕ) :
    ∀ (points : LinearRing) (i idx k : ℕ) (p q : Point),
      points[k]? = some p →
      ((perturb_points tape n i points idx).1)[k]? = some q →
      |q.1 - p.1| ≤ 1 / 10000 ∧ |q.2 - p.2| ≤ 1 / 10000 := by
  intro points
  induction points with
  | nil => intro i idx k p q hp hq; simp at hp
  | cons point rest ih =>
    intro i idx k p q hp hq
    rw [perturb_points] at hq
    by_cases hi : i = 0 ∨ i = n - 1
    · rw [if_pos hi] at hq
      cases k with
      | zero =>
        simp only [List.getElem?_cons_zero, Option.some.injEq] at hp hq
        subst hp
        rw [← hq]
        norm_num
      | succ k =>
        simp only [List.getElem?_cons_succ] at hp hq
        exact ih (i + 1) idx k p q hp hq
    · rw [if_neg hi] at hq
      simp only [rand] at hq
      cases k with
      | zero =>
        simp only [List.getElem?_cons_zero, Option.some.injEq] at hp hq
        subst hp
        rw [← hq]
        obtain ⟨hc0, hc1⟩ := ht idx
        obtain ⟨hu0, hu1⟩ := ht (idx + 1)
        obtain ⟨hv0, hv1⟩ := ht (idx + 1 + 1)
        constructor
        · simpa using perturb_offset_bound (tape (idx + 1)) (tape idx) hu0 hu1 hc0 hc1
        · simpa using perturb_offset_bound (tape (idx + 1 + 1)) (tape idx) hv0 hv1 hc0 hc1
      | succ k =>
        simp only [List.getElem?_cons_succ] at hp hq
        exact ih (i + 1) (idx + 1 + 1 + 1) k p q hp hq

end Boundary

namespace Boundary

/-- `ensure_closed` succeeds exactly on non-empty rings. -/
theorem ensure_closed_isSome (r : LinearRing) (h : r ≠ []) :
    (ensure_closed r).isSome := by
  obtain ⟨first, rest, rfl⟩ := List.exists_cons_of_ne_nil h
  rw [ensure_closed]
  cases hl : (first :: rest).getLast? with
  | none => simp [List.getLast?_eq_none_iff] at hl
  | some last =>
    simp only [List.head?_cons]
    by_cases he : first = last <;> simp [he]

/-- A successful `ensure_closed` returns a non-empty ring whose first and
last points coincide. -/
theorem ensure_closed_closed (r r' : LinearRing)
    (h : ensure_closed r = some r') : r' ≠ [] ∧ r'.head? = r'.getLast? := by
  rw [ensure_closed] at h
  split at h
  · rename_i o1 o2 first last hhead hlast
    split at h
    · rename_i hne
      simp only [Option.some.injEq] at h
      subst h
      have hrne : r ≠ [] := by
        intro hr
        rw [hr] at hhead
        simp at hhead
      refine ⟨by simp, ?_⟩
      rw [List.getLast?_concat, List.head?_append, hhead]
      rfl
    · rename_i hne
      simp only [Option.some.injEq] at h
      subst h
      have he : first = last := not_ne_iff.1 hne
      refine ⟨?_, ?_⟩
      · intro hr
        rw [hr] at hhead
        simp at hhead
      · rw [hhead, hlast, he]
  · exact Option.noConfusion h

/-- One densification step succeeds on any ring of at least 3 points and
adds exactly one point. -/
theorem densify_step_some (tape : ℕ → ℚ) (ht : ValidTape tape)
    (r : LinearRing) (idx : ℕ) (hlen : 3 ≤ r.length) :
    ∃ out idx', densify_step tape r idx = some (out, idx') ∧
      out.length = r.length + 1 := by
  have h2 : 1 ≤ r.length - 2 := by omega
  obtain ⟨hlo, hhi⟩ := randint_mem tape 1 (r.length - 2) idx ht (by omega)
  have hi1 : (randint tape 1 (r.length - 2) idx).1 < r.length := by omega
  have hi2 : (randint tape 1 (r.length - 2) idx).1 + 1 < r.length := by omega
  rw [densify_step, if_pos h2]
  dsimp only
  rw [List.getElem?_eq_getElem hi1, List.getElem?_eq_getElem hi2]
  refine ⟨_, _, rfl, ?_⟩
  rw [List.length_insertIdx _ _ (by omega)]

/-- The densification loop succeeds on any ring of at least 3 points and
adds exactly `count` points. -/
theorem densify_loop_some (tape : ℕ → ℚ) (ht : ValidTape tape) :
    ∀ (count : ℕ) (r : LinearRing) (idx : ℕ), 3 ≤ r.length →
      ∃ out idx', densify_loop tape count r idx = some (out, idx') ∧
        out.length = r.length + count := by
  intro count
  induction count with
  | zero => intro r idx hlen; exact ⟨r, idx, rfl, rfl⟩
  | succ count ih =>
    intro r idx hlen
    obtain ⟨mid, idxm, hstep, hmlen⟩ := densify_step_some tape ht r idx hlen
    obtain ⟨out, idx', hloop, holen⟩ := ih mid idxm (by omega)
    refine ⟨out, idx', ?_, by omega⟩
    rw [densify_loop, hstep]
    exact hloop

/-- A successful `refine_ring` output is closed: non-empty with identical
first and last points. -/
theorem refine_ring_closed (tape : ℕ → ℚ) (ring : LinearRing) (idx : ℕ)
    (out : LinearRing) (idx' : ℕ)
    (h : refine_ring tape ring idx = some (out, idx')) :
    out ≠ [] ∧ out.head? = out.getLast? := by
  rw [refine_ring] at h
  dsimp only at h
  by_cases h20 : ring.length < 20
  · rw [if_pos h20] at h
    split at h
    all_goals try exact Option.noConfusion h
    rename_i o1 rd hdens
    split at h
    all_goals try exact Option.noConfusion h
    rename_i o2 ring3 hclose
    simp only [Option.some.injEq, Prod.mk.injEq] at h
    obtain ⟨h1, _⟩ := h
    subst h1
    exact ensure_closed_closed _ _ hclose
  · rw [if_neg h20] at h
    dsimp only at h
    split at h
    all_goals try exact Option.noConfusion h
    rename_i o2 ring3 hclose
    simp only [Option.some.injEq, Prod.mk.injEq] at h
    obtain ⟨h1, _⟩ := h
    subst h1
    exact ensure_closed_closed _ _ hclose

/-- `refine_ring` succeeds on every ring of at least 4 points: the
densification index range is never empty and every index access is in
bounds. -/
theorem refine_ring_some (tape : ℕ → ℚ) (ht : ValidTape tape)
    (ring : LinearRing) (idx : ℕ) (hlen : 4 ≤ ring.length) :
    ∃ out idx', refine_ring tape ring idx = some (out, idx') := by
  rw [refine_ring]
  have hplen : (perturb_points tape ring.length 0 ring idx).1.length = ring.length :=
    perturb_points_length tape ring.length ring 0 idx
  dsimp only
  by_cases h20 : ring.length < 20
  · rw [if_pos h20]
    obtain ⟨mid, idxm, hloop, hmlen⟩ :=
      densify_loop_some tape ht (randint tape 0 2 (perturb_points tape ring.length 0 ring idx).2).1
        (perturb_points tape ring.length 0 ring idx).1
        (randint tape 0 2 (perturb_points tape ring.length 0 ring idx).2).2
        (by omega)
    rw [hloop]
    have hne : mid ≠ [] := by
      intro hm
      rw [hm] at hmlen
      simp only [List.length_nil] at hmlen
      omega
    obtain ⟨ring3, hclose⟩ := Option.isSome_iff_exists.1 (ensure_closed_isSome mid hne)
    dsimp only
    rw [hclose]
    exact ⟨ring3, idxm, rfl⟩
  · rw [if_neg h20]
    have hne : (perturb_points tape ring.length 0 ring idx).1 ≠ [] := by
      intro hm
      rw [hm] at hplen
      simp only [List.length_nil] at hplen
      omega
    obtain ⟨ring3, hclose⟩ := Option.isSome_iff_exists.1 (ensure_closed_isSome _ hne)
    dsimp only
    rw [hclose]
    exact ⟨ring3, _, rfl⟩

end Boundary

namespace Boundary

/-- Every ring of a successful `refine_rings` output is produced by
`refine_ring` from the input ring at the same position — the exterior ring
and the hole rings alike. -/
theorem refine_rings_correspond (tape : ℕ → ℚ) :
    ∀ (rings : List LinearRing) (idx idx' : ℕ) (out : List LinearRing),
      refine_rings tape rings idx = some (out, idx') →
      out.length = rings.length ∧
      ∀ (k : ℕ) (r_out : LinearRing), out[k]? = some r_out →
        ∃ (r_in : LinearRing) (j j' : ℕ), rings[k]? = some r_in ∧
          refine_ring tape r_in j = some (r_out, j') := by
  intro rings
  induction rings with
  | nil =>
    intro idx idx' out h
    simp only [refine_rings, Option.some.injEq, Prod.mk.injEq] at h
    obtain ⟨h1, _⟩ := h
    subst h1
    refine ⟨rfl, ?_⟩
    intro k r hk
    simp at hk
  | cons ring rest ih =>
    intro idx idx' out h
    rw [refine_rings] at h
    split at h
    all_goals try exact Option.noConfusion h
    rename_i o1 r idx1 hr
    split at h
    all_goals try exact Option.noConfusion h
    rename_i o2 rs idx2 hrs
    simp only [Option.some.injEq, Prod.mk.injEq] at h
    obtain ⟨h1, _⟩ := h
    subst h1
    obtain ⟨hlen, hcor⟩ := ih _ _ _ hrs
    refine ⟨by simp [hlen], ?_⟩
    intro k r_out hk
    cases k with
    | zero =>
      simp only [List.getElem?_cons_zero, Option.some.injEq] at hk
      subst hk
      refine ⟨ring, idx, idx1, ?_, hr⟩
      rw [List.getElem?_cons_zero]
    | succ k =>
      simp only [List.getElem?_cons_succ] at hk
      obtain ⟨r_in, j, j', hin, href⟩ := hcor k r_out hk
      refine ⟨r_in, j, j', ?_, href⟩
      rw [List.getElem?_cons_succ]
      exact hin

/-- `refine_rings` succeeds when every input ring has at least 4 points. -/
theorem refine_rings_some (tape : ℕ → ℚ) (ht : ValidTape tape) :
    ∀ (rings : List LinearRing) (idx : ℕ),
      (∀ r ∈ rings, 4 ≤ r.length) →
      ∃ out idx', refine_rings tape rings idx = some (out, idx') := by
  intro rings
  induction rings with
  | nil => intro idx _; exact ⟨[], idx, rfl⟩
  | cons ring rest ih =>
    intro idx hall
    obtain ⟨r, idx1, hr⟩ := refine_ring_some tape ht ring idx (hall ring (by simp))
    obtain ⟨rs, idx2, hrs⟩ := ih idx1 (fun q hq => hall q (by simp [hq]))
    exact ⟨r :: rs, idx2, by simp only [refine_rings, hr, hrs]⟩

end Boundary

namespace Boundary

/-- A Polygon input with one hole ring (both rings equal to `ringQ`),
used to exhibit that the refiner perturbs hole rings too. -/
def geomHole : Geometry := ⟨"Polygon", [ringQ, ringQ]⟩

/-- C2 counterexample: on the Polygon input `geomHole`, whose second ring
is a hole ring, `refine_polygon` (on the valid constant tape of draws
`1/4`) returns an output whose hole ring differs from the input hole
ring — hole rings are not passed through unchanged. -/
theorem refine_polygon_mutates_hole_ring :
    refine_polygon tapeQuarter geomHole 0 =
      some (⟨"Polygon", [ringQOut, ringQOut]⟩, 14) ∧ ringQOut ≠ ringQ := by
  constructor
  · norm_num +decide [refine_polygon, refine_rings, refine_ring, perturb_points,
      densify_loop, densify_step, ensure_closed, rand, randint, Int.toNat,
      tapeQuarter, geomHole, ringQ, ringQOut]
  · norm_num [ringQ, ringQOut]

/-- C2 (amended): the refiner does not pass hole rings through unchanged;
instead every ring of a successful Polygon refinement — the exterior ring
and every hole ring alike — is produced by the same `refine_ring`
procedure (perturbation, densification, defensive re-close) from the input
ring at the same position. -/
theorem refine_polygon_refines_every_ring (tape : ℕ → ℚ)
    (geometry : Geometry) (idx : ℕ) (out : Geometry) (idx' : ℕ)
    (hty : geometry.type = "Polygon")
    (h : refine_polygon tape geometry idx = some (out, idx')) :
    out.coordinates.length = geometry.coordinates.length ∧
    ∀ (k : ℕ) (r_out : LinearRing), out.coordinates[k]? = some r_out →
      ∃ (r_in : LinearRing) (j j' : ℕ), geometry.coordinates[k]? = some r_in ∧
        refine_ring tape r_in j = some (r_out, j') := by
  rw [refine_polygon, if_pos hty] at h
  split at h
  all_goals try exact Option.noConfusion h
  rename_i o rs idx2 hrs
  simp only [Option.some.injEq, Prod.mk.injEq] at h
  obtain ⟨h1, _⟩ := h
  subst h1
  exact refine_rings_correspond tape geometry.coordinates idx idx2 rs hrs

set_option maxHeartbeats 2000000 in
/-- Witness for the amended C2: on the concrete run of
`refine_polygon tapeQuarter geomHole 0`, the hole ring (position 1) of the
output is obtained by `refine_ring` from the input hole ring. -/
theorem refine_polygon_refines_every_ring_witness :
    ∃ (r_in : LinearRing) (j j' : ℕ), geomHole.coordinates[1]? = some r_in ∧
      refine_ring tapeQuarter r_in j = some (ringQOut, j') :=
  (refine_polygon_refines_every_ring tapeQuarter geomHole 0
    ⟨"Polygon", [ringQOut, ringQOut]⟩ 14 rfl
    (by norm_num +decide [refine_polygon, refine_rings, refine_ring, perturb_points,
      densify_loop, densify_step, ensure_closed, rand, randint, Int.toNat,
      tapeQuarter, geomHole, ringQ, ringQOut])).2 1 ringQOut (by rfl)

/-- C3: for every Polygon refiner input with closed rings, every ring of a
successful `refine_polygon` output is closed: it is non-empty and its
first and last points are identical (the defensive re-close appends a copy
of the first point whenever needed). -/
theorem refine_polygon_rings_closed (tape : ℕ → ℚ) (geometry : Geometry)
    (idx : ℕ) (out : Geometry) (idx' : ℕ)
    (hty : geometry.type = "Polygon")
    (hin : ∀ r ∈ geometry.coordinates, IsClosedRing r)
    (h : refine_polygon tape geometry idx = some (out, idx')) :
    ∀ r ∈ out.coordinates, IsClosedRing r := by
  rw [refine_polygon, if_pos hty] at h
  split at h
  all_goals try exact Option.noConfusion h
  rename_i o rs idx2 hrs
  simp only [Option.some.injEq, Prod.mk.injEq] at h
  obtain ⟨h1, _⟩ := h
  subst h1
  intro r hr
  obtain ⟨k, hk⟩ := List.getElem?_of_mem hr
  obtain ⟨r_in, j, j', hin', href⟩ :=
    (refine_rings_correspond tape geometry.coordinates idx idx2 rs hrs).2 k r hk
  exact refine_ring_closed tape r_in j r j' href

set_option maxHeartbeats 2000000 in
/-- Witness for C3: the concrete run of `refine_polygon` on a closed
square ring with the constant tape `1/2` yields the closed ring
`[(0,0), (1,0), (0,1), (0,1/2), (0,0)]`. -/
theorem refine_polygon_rings_closed_witness :
    IsClosedRing [(0, 0), (1, 0), (0, 1), (0, 1 / 2), (0, 0)] :=
  refine_polygon_rings_closed tapeHalf ⟨"Polygon", [ringQ]⟩ 0
    ⟨"Polygon", [[(0, 0), (1, 0), (0, 1), (0, 1 / 2), (0, 0)]]⟩ 10 rfl
    (by intro r hr
        simp only [List.mem_singleton] at hr
        subst hr
        exact ⟨by simp [ringQ], by simp [ringQ]⟩)
    (by norm_num +decide [refine_polygon, refine_rings, refine_ring, perturb_points,
      densify_loop, densify_step, ensure_closed, rand, randint, Int.toNat,
      tapeHalf, ringQ, List.insertIdx])
    [(0, 0), (1, 0), (0, 1), (0, 1 / 2), (0, 0)] (by simp)

/-- C4: for every outcome of the random draws on a valid tape, every point
of the perturbation pass of `refine_polygon` is displaced from its input
counterpart by at most `0.0001` degrees in each of the two coordinates
(interior vertices receive the bounded signed offset; the first point and
the closing duplicate are copied with zero displacement, and densification
only inserts new points afterwards without moving these). -/
theorem perturb_points_displacement_bound (tape : ℕ → ℚ) (ring : LinearRing)
    (idx k : ℕ) (p q : Point) (ht : ValidTape tape)
    (hp : ring[k]? = some p)
    (hq : ((perturb_points tape ring.length 0 ring idx).1)[k]? = some q) :
    |q.1 - p.1| ≤ 1 / 10000 ∧ |q.2 - p.2| ≤ 1 / 10000 :=
  perturb_points_getElem_bound tape ht ring.length ring 0 idx k p q hp hq

/-- Witness for C4: on the constant tape `1/4`, the interior vertex
`(1, 0)` of `ringQ` is perturbed to `(159997/160000, -3/160000)`, within
`0.0001` of its input counterpart in each coordinate. -/
theorem perturb_points_displacement_bound_witness :
    |(159997 / 160000 : ℚ) - 1| ≤ 1 / 10000 ∧
    |(-3 / 160000 : ℚ) - 0| ≤ 1 / 10000 :=
  perturb_points_displacement_bound tapeQuarter ringQ 0 1 (1, 0)
    (159997 / 160000, -3 / 160000) tapeQuarter_valid
    (by norm_num [ringQ])
    (by norm_num +decide [perturb_points, rand, ringQ, tapeQuarter])

/-- C7: for every refiner input whose kind is not `"Polygon"`,
`refine_polygon` returns a geometry with the same `type` and the same
`coordinates` — a structural pass-through with no perturbation or
densification. -/
theorem refine_polygon_pass_through (tape : ℕ → ℚ) (geometry : Geometry)
    (idx : ℕ) (hty : geometry.type ≠ "Polygon") :
    refine_polygon tape geometry idx = some (geometry, idx) := by
  rw [refine_polygon, if_neg hty]

/-- Witness for C7: a `"Point"` geometry passes through unchanged. -/
theorem refine_polygon_pass_through_witness :
    refine_polygon tapeHalf ⟨"Point", [[(1, 2)]]⟩ 0 =
      some (⟨"Point", [[(1, 2)]]⟩, 0) :=
  refine_polygon_pass_through tapeHalf ⟨"Point", [[(1, 2)]]⟩ 0 (by decide)

/-- C10: under the Ring precondition — every ring of a Polygon input has
at least 4 points — `refine_polygon` is total on every valid tape: the
densification index range `randint 1 (len - 2)` is non-empty, the segment
endpoint accesses are in bounds, and no failure branch is reachable. -/
theorem refine_polygon_total_of_min_ring_length (tape : ℕ → ℚ)
    (geometry : Geometry) (idx : ℕ) (ht : ValidTape tape)
    (hty : geometry.type = "Polygon")
    (hlen : ∀ r ∈ geometry.coordinates, 4 ≤ r.length) :
    (refine_polygon tape geometry idx).isSome := by
  rw [refine_polygon, if_pos hty]
  obtain ⟨out, idx', hout⟩ := refine_rings_some tape ht geometry.coordinates idx hlen
  rw [hout]
  rfl

/-- Witness for C10: totality on the concrete 4-point ring input. -/
theorem refine_polygon_total_of_min_ring_length_witness :
    (refine_polygon tapeHalf ⟨"Polygon", [ringQ]⟩ 0).isSome :=
  refine_polygon_total_of_min_ring_length tapeHalf ⟨"Polygon", [ringQ]⟩ 0
    tapeHalf_valid rfl
    (by intro r hr
        simp only [List.mem_singleton] at hr
        subst hr
        simp [ringQ])

end Boundary

namespace Boundary

/-- The vertex loop emits exactly as many points as iterations remain. -/
theorem gen_vertices_length (tape : ℕ → ℚ) (sinq cosq : ℚ → ℚ)
    (piq center_lat center_lon radius_lat radius_lon : ℚ) (num_points : ℕ) :
    ∀ (k i idx : ℕ),
      (gen_vertices tape sinq cosq piq center_lat center_lon radius_lat radius_lon
        num_points i k idx).1.length = k := by
  intro k
  induction k with
  | zero => intro i idx; rfl
  | succ k ih =>
    intro i idx
    rw [gen_vertices]
    dsimp only
    rw [List.length_cons, ih]

/-- C5: every successful synthesizer output (as returned by
`detect_boundaries_from_coords`) is a `"Polygon"` with a single exterior
ring of between 7 and 11 points (the 6-10 drawn vertices plus the closing
duplicate), whose first point equals its last point, and the accompanying
confidence lies in `[0.75, 0.95)`. -/
theorem detect_boundaries_output_shape (tape : ℕ → ℚ) (sinq cosq : ℚ → ℚ)
    (piq lat lon radius_m : ℚ) (idx : ℕ) (g : Geometry) (conf : ℚ)
    (idx' : ℕ) (ht : ValidTape tape)
    (h : detect_boundaries_from_coords tape sinq cosq piq lat lon radius_m idx =
      some (g, conf, idx')) :
    g.type = "Polygon" ∧
    (∃ ring : LinearRing, g.coordinates = [ring] ∧ 7 ≤ ring.length ∧
      ring.length ≤ 11 ∧ ring ≠ [] ∧ ring.head? = ring.getLast?) ∧
    3 / 4 ≤ conf ∧ conf < 19 / 20 := by
  rw [detect_boundaries_from_coords] at h
  split at h
  all_goals try exact Option.noConfusion h
  rename_i o gp hgen
  rw [generate_realistic_polygon] at hgen
  split at hgen
  all_goals try exact Option.noConfusion hgen
  rename_i o2 first hfirst
  simp only [Option.some.injEq] at hgen
  subst hgen
  simp only [rand, Option.some.injEq, Prod.mk.injEq] at h
  obtain ⟨h1, h2, _⟩ := h
  subst h1 h2
  obtain ⟨hn6, hn10⟩ := randint_mem tape 6 10 idx ht (by norm_num)
  obtain ⟨hc0, hc1⟩ := ht (gen_vertices tape sinq cosq piq lat lon
    (radius_m / 110540) (radius_m / (111320 * cosq (lat * piq / 180)))
    (randint tape 6 10 idx).1 0 (randint tape 6 10 idx).1 (randint tape 6 10 idx).2).2
  refine ⟨rfl, ⟨_, rfl, ?_, ?_, by simp, ?_⟩, by linarith, by linarith⟩
  · rw [List.length_append, gen_vertices_length]
    simp only [List.length_cons, List.length_nil]
    omega
  · rw [List.length_append, gen_vertices_length]
    simp only [List.length_cons, List.length_nil]
    omega
  · rw [List.head?_append, hfirst, List.getLast?_concat]
    rfl

end Boundary

namespace Boundary

/-- The ring synthesized on the constant tape `1/2` with the constant-zero
stand-ins for `math.sin`/`math.cos`: 8 drawn vertices plus the closing
duplicate, all at the center point. -/
def ringZeros : LinearRing :=
  [(0, 0), (0, 0), (0, 0), (0, 0), (0, 0), (0, 0), (0, 0), (0, 0), (0, 0)]

set_option maxHeartbeats 2000000 in
/-- Witness for C5: the theorem applied to the concrete synthesizer run on
the constant tape `1/2`. -/
theorem detect_boundaries_output_shape_witness :
    (Geometry.mk "Polygon" [ringZeros]).type = "Polygon" ∧
    (∃ ring : LinearRing, (Geometry.mk "Polygon" [ringZeros]).coordinates = [ring] ∧
      7 ≤ ring.length ∧ ring.length ≤ 11 ∧ ring ≠ [] ∧
      ring.head? = ring.getLast?) ∧
    (3 / 4 : ℚ) ≤ 17 / 20 ∧ (17 / 20 : ℚ) < 19 / 20 :=
  detect_boundaries_output_shape tapeHalf (fun _ => 0) (fun _ => 0) 0 0 0 500 0
    ⟨"Polygon", [ringZeros]⟩ (17 / 20) 26 tapeHalf_valid
    (by norm_num +decide [detect_boundaries_from_coords, generate_realistic_polygon,
      gen_vertices, rand, randint, Int.toNat, tapeHalf, ringZeros])

end Boundary

/-! ## Frame lemmas: the refiner only allocates, never writes -/

namespace Alias

theorem extends_refl (s : Arena) : Extends s s :=
  ⟨[], (List.append_nil _).symm⟩

theorem extends_trans {s1 s2 s3 : Arena} (h12 : Extends s1 s2)
    (h23 : Extends s2 s3) : Extends s1 s3 := by
  obtain ⟨t1, h1⟩ := h12
  obtain ⟨t2, h2⟩ := h23
  exact ⟨t1 ++ t2, by rw [h2, h1, List.append_assoc]⟩

theorem extends_alloc (s : Arena) (p : Point) : Extends s (s.alloc p).2 :=
  ⟨[p], rfl⟩

/-- Every point object existing before an extension keeps its value. -/
theorem extends_read {s s' : Arena} (h : Extends s s') (p : Ptr)
    (hp : p < s.cells.length) : s'.read p = s.read p := by
  obtain ⟨t, ht⟩ := h
  rw [Arena.read, Arena.read, ht, List.getElem?_append_left hp]

theorem perturb_points_st_extends (tape : ℕ → ℚ) (n : ℕ) :
    ∀ (points : List Ptr) (i idx : ℕ) (s : Arena) (out : List Ptr)
      (idx' : ℕ) (s' : Arena),
      perturb_points_st tape n i points idx s = some (out, idx', s') →
      Extends s s' := by
  intro points
  induction points with
  | nil =>
    intro i idx s out idx' s' h
    simp only [perturb_points_st, Option.some.injEq, Prod.mk.injEq] at h
    obtain ⟨_, _, h3⟩ := h
    subst h3
    exact extends_refl s
  | cons p rest ih =>
    intro i idx s out idx' s' h
    rw [perturb_points_st] at h
    by_cases hi : i = 0 ∨ i = n - 1
    · rw [if_pos hi] at h
      split at h
      all_goals try exact Option.noConfusion h
      rename_i o tail idx2 s2 hrec
      simp only [Option.some.injEq, Prod.mk.injEq] at h
      obtain ⟨_, _, h3⟩ := h
      subst h3
      exact ih _ _ _ _ _ _ hrec
    · rw [if_neg hi] at h
      split at h
      all_goals try exact Option.noConfusion h
      rename_i o pv hread
      dsimp only at h
      split at h
      all_goals try exact Option.noConfusion h
      rename_i o2 tail idx4 s2 hrec
      simp only [Option.some.injEq, Prod.mk.injEq] at h
      obtain ⟨_, _, h3⟩ := h
      subst h3
      exact extends_trans (extends_alloc s _) (ih _ _ _ _ _ _ hrec)

theorem densify_step_st_extends (tape : ℕ → ℚ) (r : List Ptr) (idx : ℕ)
    (s : Arena) (out : List Ptr) (idx' : ℕ) (s' : Arena)
    (h : densify_step_st tape r idx s = some (out, idx', s')) :
    Extends s s' := by
  rw [densify_step_st] at h
  split at h
  all_goals try exact Option.noConfusion h
  dsimp only at h
  split at h
  all_goals try exact Option.noConfusion h
  split at h
  all_goals try exact Option.noConfusion h
  simp only [Option.some.injEq, Prod.mk.injEq] at h
  obtain ⟨_, _, h3⟩ := h
  subst h3
  exact extends_alloc s _

theorem densify_loop_st_extends (tape : ℕ → ℚ) :
    ∀ (count : ℕ) (r : List Ptr) (idx : ℕ) (s : Arena) (out : List Ptr)
      (idx' : ℕ) (s' : Arena),
      densify_loop_st tape count r idx s = some (out, idx', s') →
      Extends s s' := by
  intro count
  induction count with
  | zero =>
    intro r idx s out idx' s' h
    simp only [densify_loop_st, Option.some.injEq, Prod.mk.injEq] at h
    obtain ⟨_, _, h3⟩ := h
    subst h3
    exact extends_refl s
  | succ count ih =>
    intro r idx s out idx' s' h
    rw [densify_loop_st] at h
    split at h
    all_goals try exact Option.noConfusion h
    rename_i o mid idxm sm hstep
    exact extends_trans
      (densify_step_st_extends tape r idx s mid idxm sm hstep)
      (ih mid idxm sm out idx' s' h)

theorem ensure_closed_st_extends (r : List Ptr) (s : Arena)
    (out : List Ptr) (s' : Arena)
    (h : ensure_closed_st r s = some (out, s')) : Extends s s' := by
  rw [ensure_closed_st] at h
  split at h
  all_goals try exact Option.noConfusion h
  split at h
  all_goals try exact Option.noConfusion h
  split at h
  · simp only [Option.some.injEq, Prod.mk.injEq] at h
    obtain ⟨_, h2⟩ := h
    subst h2
    exact extends_alloc s _
  · simp only [Option.some.injEq, Prod.mk.injEq] at h
    obtain ⟨_, h2⟩ := h
    subst h2
    exact extends_refl s

theorem refine_ring_st_extends (tape : ℕ → ℚ) (ring : List Ptr) (idx : ℕ)
    (s : Arena) (out : List Ptr) (idx' : ℕ) (s' : Arena)
    (h : refine_ring_st tape ring idx s = some (out, idx', s')) :
    Extends s s' := by
  rw [refine_ring_st] at h
  split at h
  all_goals try exact Option.noConfusion h
  rename_i o pr hperturb
  dsimp only at h
  by_cases h20 : ring.length < 20
  · rw [if_pos h20] at h
    split at h
    all_goals try exact Option.noConfusion h
    rename_i o2 rd hloop
    split at h
    all_goals try exact Option.noConfusion h
    rename_i o3 cl hclose
    simp only [Option.some.injEq, Prod.mk.injEq] at h
    obtain ⟨_, _, h3⟩ := h
    subst h3
    have e1 : Extends s pr.2.2 :=
      perturb_points_st_extends tape ring.length ring 0 idx s pr.1 pr.2.1 pr.2.2
        (by rw [hperturb])
    have e2 : Extends pr.2.2 rd.2.2 :=
      densify_loop_st_extends tape (randint tape 0 2 pr.2.1).1 pr.1
        (randint tape 0 2 pr.2.1).2 pr.2.2 rd.1 rd.2.1 rd.2.2 (by rw [hloop])
    have e3 : Extends rd.2.2 cl.2 :=
      ensure_closed_st_extends rd.1 rd.2.2 cl.1 cl.2 (by rw [hclose])
    exact extends_trans e1 (extends_trans e2 e3)
  · rw [if_neg h20] at h
    dsimp only at h
    split at h
    all_goals try exact Option.noConfusion h
    rename_i o3 cl hclose
    simp only [Option.some.injEq, Prod.mk.injEq] at h
    obtain ⟨_, _, h3⟩ := h
    subst h3
    have e1 : Extends s pr.2.2 :=
      perturb_points_st_extends tape ring.length ring 0 idx s pr.1 pr.2.1 pr.2.2
        (by rw [hperturb])
    have e3 : Extends pr.2.2 cl.2 :=
      ensure_closed_st_extends pr.1 pr.2.2 cl.1 cl.2 (by rw [hclose])
    exact extends_trans e1 e3

theorem refine_rings_st_extends (tape : ℕ → ℚ) :
    ∀ (rings : List (List Ptr)) (idx : ℕ) (s : Arena)
      (out : List (List Ptr)) (idx' : ℕ) (s' : Arena),
      refine_rings_st tape rings idx s = some (out, idx', s') →
      Extends s s' := by
  intro rings
  induction rings with
  | nil =>
    intro idx s out idx' s' h
    simp only [refine_rings_st, Option.some.injEq, Prod.mk.injEq] at h
    obtain ⟨_, _, h3⟩ := h
    subst h3
    exact extends_refl s
  | cons ring rest ih =>
    intro idx s out idx' s' h
    rw [refine_rings_st] at h
    split at h
    all_goals try exact Option.noConfusion h
    rename_i o r idx1 s1 hr
    split at h
    all_goals try exact Option.noConfusion h
    rename_i o2 rs idx2 s2 hrs
    simp only [Option.some.injEq, Prod.mk.injEq] at h
    obtain ⟨_, _, h3⟩ := h
    subst h3
    exact extends_trans (refine_ring_st_extends tape ring idx s r idx1 s1 hr)
      (ih _ _ _ _ _ hrs)

theorem refine_polygon_st_extends (tape : ℕ → ℚ) (geometry : GeometryR)
    (idx : ℕ) (s : Arena) (out : GeometryR) (idx' : ℕ) (s' : Arena)
    (h : refine_polygon_st tape geometry idx s = some (out, idx', s')) :
    Extends s s' := by
  rw [refine_polygon_st] at h
  split at h
  · split at h
    all_goals try exact Option.noConfusion h
    rename_i o rs idx2 s2 hrs
    simp only [Option.some.injEq, Prod.mk.injEq] at h
    obtain ⟨_, _, h3⟩ := h
    subst h3
    exact refine_rings_st_extends tape geometry.coordinates _ _ _ _ _ hrs
  · simp only [Option.some.injEq, Prod.mk.injEq] at h
    obtain ⟨_, _, h3⟩ := h
    subst h3
    exact extends_refl s

theorem improve_existing_boundary_st_extends (tape : ℕ → ℚ)
    (sqrtq cosq : ℚ → ℚ) (piq : ℚ) (geometry : GeometryR) (idx : ℕ)
    (s : Arena) (out : GeometryR) (conf : ℚ) (idx' : ℕ) (s' : Arena)
    (h : improve_existing_boundary_st tape sqrtq cosq piq geometry idx s =
      some (out, conf, idx', s')) : Extends s s' := by
  rw [improve_existing_boundary_st] at h
  split at h
  all_goals try exact Option.noConfusion h
  split at h
  all_goals try exact Option.noConfusion h
  rename_i o2 rp hrp
  dsimp only at h
  simp only [Option.some.injEq, Prod.mk.injEq] at h
  obtain ⟨_, _, _, h4⟩ := h
  subst h4
  exact refine_polygon_st_extends tape geometry idx s rp.1 rp.2.1 rp.2.2 (by rw [hrp])

end Alias

namespace Alias

/-- C9: `refine_polygon` — and hence `improve_existing_boundary`, which
returns `refine_polygon` of its input — never mutates its input: every
point object that exists before the call still holds exactly its old value
after the call (the arena is only ever extended by freshly allocated
perturbed, inserted, or re-close copy points, never written), and the
input geometry's own ring structure is an immutable value in this model. -/
theorem refine_polygon_st_no_mutation :
    (∀ (tape : ℕ → ℚ) (geometry : GeometryR) (idx : ℕ) (s : Arena)
      (out : GeometryR) (idx' : ℕ) (s' : Arena),
      refine_polygon_st tape geometry idx s = some (out, idx', s') →
      (∃ t, s'.cells = s.cells ++ t) ∧
      ∀ p : Ptr, p < s.cells.length → s'.read p = s.read p) ∧
    (∀ (tape : ℕ → ℚ) (sqrtq cosq : ℚ → ℚ) (piq : ℚ) (geometry : GeometryR)
      (idx : ℕ) (s : Arena) (out : GeometryR) (conf : ℚ) (idx' : ℕ)
      (s' : Arena),
      improve_existing_boundary_st tape sqrtq cosq piq geometry idx s =
        some (out, conf, idx', s') →
      (∃ t, s'.cells = s.cells ++ t) ∧
      ∀ p : Ptr, p < s.cells.length → s'.read p = s.read p) := by
  constructor
  · intro tape geometry idx s out idx' s' h
    have he := refine_polygon_st_extends tape geometry idx s out idx' s' h
    exact ⟨he, fun p hp => extends_read he p hp⟩
  · intro tape sqrtq cosq piq geometry idx s out conf idx' s' h
    have he := improve_existing_boundary_st_extends tape sqrtq cosq piq
      geometry idx s out conf idx' s' h
    exact ⟨he, fun p hp => extends_read he p hp⟩

/-- The arena holding the four point objects of `ringQ`. -/
def arenaQ : Arena := ⟨[(0, 0), (1, 0), (0, 1), (0, 0)]⟩

/-- The Polygon whose single ring references the four cells of `arenaQ`. -/
def geomRW : GeometryR := ⟨"Polygon", [[0, 1, 2, 3]]⟩

/-- The arena after refining `geomRW` on the constant tape `1/4`: the
original four cells, untouched, followed by the two freshly allocated
perturbed interior points. -/
def arenaQ' : Arena :=
  ⟨[(0, 0), (1, 0), (0, 1), (0, 0), (159997 / 160000, -3 / 160000),
    (-3 / 160000, 159997 / 160000)]⟩

set_option maxHeartbeats 2000000 in
/-- Witness for C9: on the concrete refinement run, the input point object
at pointer 1 still holds its old value afterwards. -/
theorem refine_polygon_st_no_mutation_witness :
    arenaQ'.read 1 = arenaQ.read 1 :=
  (refine_polygon_st_no_mutation.1 tapeQuarter geomRW 0 arenaQ
    ⟨"Polygon", [[0, 4, 5, 3]]⟩ 7 arenaQ'
    (by norm_num +decide [refine_polygon_st, refine_rings_st, refine_ring_st,
      perturb_points_st, densify_loop_st, densify_step_st, ensure_closed_st,
      Arena.read, Arena.alloc, rand, randint, Int.toNat, tapeQuarter, geomRW,
      arenaQ, arenaQ'])).2 1
    (by norm_num [arenaQ])

end Alias
